import Mathlib

/-!
Verification of the motion-coordination core of the `musicpuncher` repository
(`musicpuncher/music_puncher.py`), shallowly embedded in Lean 4.

Conventions of the embedding:
* Python numbers used in exact integer positions become `ℤ`/`ℕ`; Python
  floats that feed `round` become `ℚ` with `pyRound` implementing Python 3's
  round-half-to-even.
* Python code that can raise (`IndexError`, `ZeroDivisionError`,
  `RuntimeError`) or fail to terminate becomes `Option`-valued; `none` means
  the call does not return a value.
* Side effects on the hardware (moves, punches, cuts) become an explicit
  trace of `Action`s.
-/

namespace MusicPuncher

/-- Python 3 `round` to an integer: round-half-to-even (banker's rounding),
written via the floor and the fractional part `q - ⌊q⌋`. -/
def pyRound (q : ℚ) : ℤ :=
  if q - ⌊q⌋ < 1/2 then ⌊q⌋
  else if 1/2 < q - ⌊q⌋ then ⌊q⌋ + 1
  else if 2 ∣ ⌊q⌋ then ⌊q⌋ else ⌊q⌋ + 1

/-- `calculate_acceleration_profile`'s while-loop (`music_puncher.py`
lines 173-181), with explicit fuel: `none` means the call did not return
normally (division by zero at `sps = 0`, or the loop did not terminate
within `fuel` iterations).  Each iteration appends
`round(1000000 / sps)` and updates `sps += acceleration * (1 / sps)`. -/
def profileLoop (acceleration max_sps : ℚ) : ℕ → ℚ → Option (List ℤ)
  | 0, sps => if sps < max_sps then none else some []
  | fuel + 1, sps =>
    if sps < max_sps then
      if sps = 0 then none
      else
        (profileLoop acceleration max_sps fuel (sps + acceleration * (1 / sps))).map
          (fun l => pyRound (1000000 / sps) :: l)
    else some []

/-- `calculate_acceleration_profile(min_sps, max_sps, acceleration)`:
starts the loop at `sps = min_sps`. -/
def calculate_acceleration_profile (fuel : ℕ) (min_sps max_sps acceleration : ℚ) :
    Option (List ℤ) :=
  profileLoop acceleration max_sps fuel min_sps

/-- One pigpio pulse: gpio-on mask, gpio-off mask, delay in microseconds. -/
structure Pulse where
  gpioOn : ℕ
  gpioOff : ℕ
  delay : ℕ
  deriving DecidableEq, Repr

/-- The loop body of `PiGPIOStepperMotor.create_move_waveform`
(`music_puncher.py` lines 221-234), producing the logical per-step delays.
`k` is the number of iterations still to run (so the Python `rem` after the
decrement equals `k - 1`), `i` is the Python loop index, `sts` is
`steps_to_stop`.  `none` models the `IndexError` raised when `profile[rem]`
is read out of range. -/
def wavAux (profile : List ℕ) (min_delay_us : ℕ) : ℕ → ℕ → ℕ → Option (List ℕ)
  | 0, _, _ => some []
  | k + 1, i, sts =>
    if k ≤ sts then
      match profile.get? k with
      | none => none
      | some d => (wavAux profile min_delay_us k (i + 1) sts).map (fun l => d :: l)
    else if h : i < profile.length then
      (wavAux profile min_delay_us k (i + 1) i).map
        (fun l => profile.get ⟨i, h⟩ :: l)
    else
      (wavAux profile min_delay_us k (i + 1) sts).map (fun l => min_delay_us :: l)

/-- The logical per-step delays of `create_move_waveform(steps)`:
`count = abs(steps)` iterations of the loop starting at `i = 0`,
`steps_to_stop = 0`. -/
def moveDelays (profile : List ℕ) (min_delay_us : ℕ) (steps : ℤ) : Option (List ℕ) :=
  wavAux profile min_delay_us steps.natAbs 0 0

/-- `create_move_waveform` as the source writes it: each logical delay `d`
becomes the two appended pulses
`pulse(1 << step_pin, 0, d >> 1)` and `pulse(0, 1 << step_pin, d >> 1)`. -/
def create_move_waveform (step_pin : ℕ) (profile : List ℕ) (min_delay_us : ℕ)
    (steps : ℤ) : Option (List Pulse) :=
  (moveDelays profile min_delay_us steps).map
    (fun l => l.flatMap (fun d => [⟨1 <<< step_pin, 0, d >>> 1⟩, ⟨0, 1 <<< step_pin, d >>> 1⟩]))

/-- Total duration of a pulse train: `wavelength` in `__synchronize`
(`music_puncher.py` lines 147-151).  We model a pulse train by its list of
delays (in microseconds). -/
def wavelength (pulses : List ℤ) : ℤ := pulses.sum

/-- `MusicPuncher.__synchronize(wave1, wave2)` (`music_puncher.py` lines
145-170): returns the two trains after scaling together with the common
length in microseconds; `none` models the `ZeroDivisionError` hit when the
scaling factor's denominator is a zero wavelength.  Scaling replaces each
delay `d` of the scaled train by `round(d * factor)`. -/
def synchronize (wave1 wave2 : List ℤ) : Option (List ℤ × List ℤ × ℤ) :=
  if wave1 = [] then some (wave1, wave2, wavelength wave2)
  else if wave2 = [] then some (wave1, wave2, wavelength wave1)
  else
    let l1 := wavelength wave1
    let l2 := wavelength wave2
    if l2 < l1 then
      if l2 = 0 then none
      else some (wave1, wave2.map (fun d : ℤ => pyRound ((d : ℚ) * ((l1 : ℚ) / (l2 : ℚ)))), l1)
    else
      if l1 = 0 then none
      else some (wave1.map (fun d : ℤ => pyRound ((d : ℚ) * ((l2 : ℚ) / (l1 : ℚ)))), wave2, l2)

/-- One event of the note sequence: a delay (Python float, modelled as `ℚ`)
and the list of simultaneous notes. -/
structure Event where
  delay : ℚ
  notes : List ℕ

/-- The sorted absolute tone-axis targets of one event
(`music_puncher.py` lines 50-51):
`sorted([row0 + keyboard.get_index(note) * tone_steps for note in notes])`. -/
def resolvePositions (row0 tone_steps : ℤ) (get_index : ℕ → ℤ) (notes : List ℕ) :
    List ℤ :=
  List.insertionSort (· ≤ ·) (notes.map (fun n => row0 + get_index n * tone_steps))

/-- Reversal of the visit order (`music_puncher.py` lines 52-53): reverse
when the current position is strictly closer to the last sorted target than
to the first. -/
def chooseOrder (position : ℤ) (positions : List ℤ) : List ℤ :=
  if |position - positions.getLastD 0| < |position - positions.headD 0| then
    positions.reverse
  else positions

/-- The inner loop of `MusicPuncher.run` (`music_puncher.py` lines 55-60):
emit `(delay, target - position)` for each target unless it is `(0, 0)`,
updating `position := target` and `delay := 0` each time. -/
def emitMoves (position delay : ℤ) : List ℤ → List (ℤ × ℤ)
  | [] => []
  | t :: ts =>
    if (delay, t - position) = ((0 : ℤ), (0 : ℤ)) then emitMoves t 0 ts
    else (delay, t - position) :: emitMoves t 0 ts

/-- Processing of one event by `MusicPuncher.run`: resolve and sort the
targets, choose the visit order, scale the delay
(`delay = round(delayNotes.delay * feed_steps)`), and emit the moves.
Returns the moves together with the updated head position. -/
def processEvent (row0 tone_steps : ℤ) (feed_steps : ℚ) (get_index : ℕ → ℤ)
    (position : ℤ) (ev : Event) : List (ℤ × ℤ) × ℤ :=
  let order := chooseOrder position (resolvePositions row0 tone_steps get_index ev.notes)
  (emitMoves position (pyRound (ev.delay * feed_steps)) order, order.getLastD position)

/-- The step-building loop of `MusicPuncher.run` (`music_puncher.py` lines
45-61): `none` models the `RuntimeError` raised on an event with an empty
note set.  Returns the concatenated move list and the final head position
of the construction. -/
def buildSteps (row0 tone_steps : ℤ) (feed_steps : ℚ) (get_index : ℕ → ℤ) :
    ℤ → List Event → Option (List (ℤ × ℤ) × ℤ)
  | position, [] => some ([], position)
  | position, ev :: evs =>
    if ev.notes = [] then none
    else
      (buildSteps row0 tone_steps feed_steps get_index
          (processEvent row0 tone_steps feed_steps get_index position ev).2 evs).map
        (fun r => ((processEvent row0 tone_steps feed_steps get_index position ev).1 ++ r.1,
          r.2))

/-- Observable actions of a run: a synchronized two-axis move
(feed time-steps, tone displacement), a punch, a cut. -/
inductive Action where
  | move (feed tone : ℤ)
  | punch
  | cut
  deriving DecidableEq, Repr

/-- `MusicPuncher.__move(feedsteps, tonesteps)` (`music_puncher.py` lines
99-105): does nothing on `(0, 0)`, otherwise performs the move and advances
the head position by `tonesteps`.  Returns the trace and the new position. -/
def pyMove (feedsteps tonesteps position : ℤ) : List Action × ℤ :=
  if feedsteps = 0 ∧ tonesteps = 0 then ([], position)
  else ([Action.move feedsteps tonesteps], position + tonesteps)

/-- The main loop of `MusicPuncher.do_run` (`music_puncher.py` lines 73-87):
for each step run its waveform, punch, accumulate the feed total, and fire
the cutter at the first step after which the running total reaches
`cutter_step` (if it has not fired yet).  Returns the trace, the final head
position and the `did_cut` flag. -/
def doRunAux (cutter_step : ℤ) :
    List (ℤ × ℤ) → ℤ → ℤ → Bool → List Action × ℤ × Bool
  | [], _, position, did_cut => ([], position, did_cut)
  | s :: rest, total, position, did_cut =>
    let total' := total + s.1
    let fire := !did_cut && decide (cutter_step ≤ total')
    let r := doRunAux cutter_step rest total' (position + s.2) (did_cut || fire)
    (Action.move s.1 s.2 :: Action.punch ::
      ((if fire then [Action.cut] else []) ++ r.1), r.2)

/-- `MusicPuncher.do_run(steps)` (`music_puncher.py` lines 65-97):
`cutter_step = (sum of feed delays) + cutter_position`; after the loop, if
the cutter has not fired, move by `(cutter_position, idle_position - position)`
when `cutter_position > 0` and fire it; then the optional end-feed move and
the final return to the idle position. -/
def do_run (cutter_position end_feed idle_position : ℤ) (steps : List (ℤ × ℤ))
    (position0 : ℤ) : List Action × ℤ :=
  let cutter_step := (steps.map Prod.fst).sum + cutter_position
  let r := doRunAux cutter_step steps 0 position0 false
  let fin :=
    if r.2.2 then ([], r.2.1)
    else
      let m := if 0 < cutter_position then
        pyMove cutter_position (idle_position - r.2.1) r.2.1 else ([], r.2.1)
      (m.1 ++ [Action.cut], m.2)
  let ef :=
    if 0 < end_feed then pyMove end_feed (idle_position - fin.2) fin.2
    else ([], fin.2)
  let last := pyMove 0 (idle_position - ef.2) ef.2
  (r.1 ++ fin.1 ++ ef.1 ++ last.1, last.2)

/-- `MusicPuncher.run` (`music_puncher.py` lines 42-63), starting from the
head position established by `reset()`: build the step list (`none` on an
empty note set, in which case no move is executed) and hand it to
`do_run`. -/
def run (row0 tone_steps : ℤ) (feed_steps : ℚ) (get_index : ℕ → ℤ)
    (cutter_position end_feed idle_position position0 : ℤ) (events : List Event) :
    Option (List Action × ℤ) :=
  (buildSteps row0 tone_steps feed_steps get_index position0 events).map
    (fun r => do_run cutter_position end_feed idle_position r.1 position0)

/-! ### Closed forms of the motion-planner loop -/

/-- Deceleration phase: once `k ≤ steps_to_stop + 1` and the profile is long
enough, the remaining output mirrors the profile prefix backwards. -/
theorem wavAux_decel (profile : List ℕ) (m : ℕ) :
    ∀ k i sts, k ≤ sts + 1 → k ≤ profile.length →
      wavAux profile m k i sts = some ((profile.take k).reverse) := by
  intro k
  induction k with
  | zero => intro i sts _ _; simp [wavAux]
  | succ k ih =>
    intro i sts hsts hlen
    have hk : k ≤ sts := Nat.lt_succ_iff.mp (Nat.lt_of_lt_of_le (Nat.lt_succ_self k) hsts)
    have hklen : k < profile.length := Nat.lt_of_lt_of_le (Nat.lt_succ_self k) hlen
    rw [wavAux, if_pos hk, List.get?_eq_get hklen,
      ih (i + 1) sts (Nat.le_succ_of_le hk) (Nat.le_of_lt hklen),
      ← List.take_concat_get' profile k hklen, List.reverse_append]
    rfl

/-- Cruise phase: with `steps_to_stop` frozen at `profile.length - 1` and the
loop index past the profile, the output is `min_delay` pulses followed by the
mirrored profile. -/
theorem wavAux_cruise (profile : List ℕ) (m : ℕ) :
    ∀ k i, 1 ≤ profile.length → profile.length ≤ k → profile.length ≤ i →
      wavAux profile m k i (profile.length - 1) =
        some (List.replicate (k - profile.length) m ++ profile.reverse) := by
  intro k
  induction k with
  | zero => intro i h1 hk _; omega
  | succ k ih =>
    intro i h1 hk hi
    by_cases hkL : k + 1 ≤ profile.length
    · have hEq : k + 1 = profile.length := Nat.le_antisymm hkL hk
      rw [wavAux_decel profile m (k + 1) i (profile.length - 1) (by omega) (by omega),
        hEq, List.take_length]
      simp [hEq]
    · have hk' : profile.length ≤ k := by omega
      have c1 : ¬ k ≤ profile.length - 1 := by omega
      have c2 : ¬ i < profile.length := by omega
      rw [wavAux, if_neg c1, dif_neg c2, ih (i + 1) h1 hk' (Nat.le_succ_of_le hi)]
      have : k + 1 - profile.length = (k - profile.length) + 1 := by omega
      simp [this, List.replicate_succ]

/-- Acceleration/deceleration closed form for short moves: starting at loop
index `i` with `steps_to_stop = i - 1` and no cruise possible
(`k + i ≤ 2 * len`), the output ramps along the profile and mirrors back. -/
theorem wavAux_short (profile : List ℕ) (m : ℕ) :
    ∀ k i, 1 ≤ profile.length → i ≤ profile.length → i ≤ k + 1 →
      k + i ≤ 2 * profile.length →
      wavAux profile m k i (i - 1) =
        some ((profile.drop i).take ((k - i + 1) / 2) ++
          (profile.take ((k + i) / 2)).reverse) := by
  intro k
  induction k with
  | zero =>
    intro i h1 hiL hi1 h2L
    have hi01 : i ≤ 1 := hi1
    interval_cases i <;> simp [wavAux]
  | succ k ih =>
    intro i h1 hiL hi1 h2L
    by_cases hdec : k ≤ i - 1
    · -- deceleration from here on
      have hkL : k + 1 ≤ profile.length := by omega
      rw [wavAux_decel profile m (k + 1) i (i - 1) (by omega) hkL]
      rcases Nat.eq_zero_or_pos i with hi0 | hipos
      · subst hi0
        have hk0 : k = 0 := by omega
        subst hk0
        have ht1 : (1 - 0 + 1) / 2 = 1 := by omega
        have ht2 : (1 + 0) / 2 = 0 := by omega
        rw [ht1, ht2]
        rcases profile with _ | ⟨p, rest⟩
        · simp at h1
        · simp
      · have ha : (k + 1 - i + 1) / 2 = 0 := by omega
        have hb : (k + 1 + i) / 2 = k + 1 := by omega
        rw [ha, hb]
        simp
    · -- still accelerating (cruise is impossible under `k + i ≤ 2 * len`)
      have hilt : i < profile.length := by omega
      have hik : i ≤ k := by omega
      rw [wavAux, if_neg hdec, dif_pos hilt]
      have := ih (i + 1) h1 hilt (by omega) (by omega)
      have hsts : i + 1 - 1 = i := by omega
      rw [hsts] at this
      rw [this]
      have ha : (k - (i + 1) + 1) / 2 = (k - i) / 2 := by omega
      have hb : (k + (i + 1)) / 2 = (k + 1 + i) / 2 := by omega
      have hc : (k + 1 - i + 1) / 2 = (k - i) / 2 + 1 := by omega
      rw [ha, hb, hc]
      rw [List.drop_eq_getElem_cons hilt, List.take_succ_cons, List.cons_append]
      simp

/-- Closed form for long moves: full ramp, cruise block, mirrored ramp. -/
theorem wavAux_long (profile : List ℕ) (m : ℕ) :
    ∀ k i, 1 ≤ profile.length → i ≤ profile.length →
      2 * profile.length ≤ k + i →
      wavAux profile m k i (i - 1) =
        some (profile.drop i ++ List.replicate (k + i - 2 * profile.length) m ++
          profile.reverse) := by
  intro k
  induction k with
  | zero => intro i h1 hiL h2L; omega
  | succ k ih =>
    intro i h1 hiL h2L
    by_cases hiE : i = profile.length
    · subst hiE
      have hsts : profile.length ≤ k + 1 := by omega
      rw [wavAux_cruise profile m (k + 1) profile.length h1 hsts (le_refl _)]
      have : k + 1 + profile.length - 2 * profile.length = k + 1 - profile.length := by
        omega
      simp [this]
    · have hilt : i < profile.length := by omega
      have hdec : ¬ k ≤ i - 1 := by omega
      rw [wavAux, if_neg hdec, dif_pos hilt]
      have := ih (i + 1) h1 hilt (by omega)
      have hsts : i + 1 - 1 = i := by omega
      rw [hsts] at this
      rw [this]
      have ha : k + (i + 1) - 2 * profile.length = k + 1 + i - 2 * profile.length := by
        omega
      rw [ha, List.drop_eq_getElem_cons hilt, List.cons_append]
      simp [List.append_assoc]

/-- Totality and length: as long as `steps_to_stop < len(profile)` the loop
never reads out of range and emits one delay per iteration. -/
theorem wavAux_length (profile : List ℕ) (m : ℕ) :
    ∀ k i sts, sts < profile.length →
      ∃ l, wavAux profile m k i sts = some l ∧ l.length = k := by
  intro k
  induction k with
  | zero => intro i sts _; exact ⟨[], rfl, rfl⟩
  | succ k ih =>
    intro i sts hsts
    by_cases hk : k ≤ sts
    · have hklen : k < profile.length := Nat.lt_of_le_of_lt hk hsts
      obtain ⟨l, hl, hlen⟩ := ih (i + 1) sts hsts
      refine ⟨profile.get ⟨k, hklen⟩ :: l, ?_, by simp [hlen]⟩
      rw [wavAux, if_pos hk, List.get?_eq_get hklen, hl]
      rfl
    · by_cases hi : i < profile.length
      · obtain ⟨l, hl, hlen⟩ := ih (i + 1) i hi
        refine ⟨profile.get ⟨i, hi⟩ :: l, ?_, by simp [hlen]⟩
        rw [wavAux, if_neg hk, dif_pos hi, hl]
        rfl
      · obtain ⟨l, hl, hlen⟩ := ih (i + 1) sts hsts
        refine ⟨m :: l, ?_, by simp [hlen]⟩
        rw [wavAux, if_neg hk, dif_neg hi, hl]
        rfl

/-- Head of a non-trivial prefix. -/
theorem take_head? {α : Type} (l : List α) (n : ℕ) (hn : 1 ≤ n) :
    (l.take n).head? = l.head? := by
  cases l with
  | nil => simp
  | cons a t =>
    cases n with
    | zero => omega
    | succ n => simp

/-- Last element of a reversed list. -/
theorem reverse_getLast? {α : Type} (l : List α) : l.reverse.getLast? = l.head? := by
  cases l with
  | nil => rfl
  | cons a t =>
    rw [List.reverse_cons, List.getLast?_append_of_ne_nil _ (by simp)]
    rfl

/-- The planner loop on an empty profile fails on every non-empty move:
the `rem ≤ steps_to_stop` branch is eventually taken (at the latest in the
final iteration, where `rem = 0`) and reads `profile[rem]` out of range. -/
theorem wavAux_nil (m : ℕ) :
    ∀ k i sts, 1 ≤ k → wavAux [] m k i sts = none := by
  intro k
  induction k with
  | zero => intro i sts h; omega
  | succ k ih =>
    intro i sts _
    by_cases hk : k ≤ sts
    · simp [wavAux, hk]
    · have hk1 : 1 ≤ k := by omega
      rw [wavAux, if_neg hk, dif_neg (by simp), ih (i + 1) sts hk1]
      rfl

/-- **C3 (amended: non-empty profile).**  For every non-empty acceleration
profile and every step count, `create_move_waveform`'s logical plan has
exactly `abs(steps)` per-step delays; for `count ≤ 2 * len(profile)` it is a
ramp up along the profile immediately mirrored back down (no cruise
entries), and for `count ≥ 2 * len(profile)` it is the full profile, a block
of `count - 2 * len(profile)` minimum delays, and the reversed profile. -/
theorem moveDelays_plan_shape (profile : List ℕ) (m : ℕ) (steps : ℤ)
    (hp : profile ≠ []) :
    ∃ l, moveDelays profile m steps = some l ∧
      l.length = steps.natAbs ∧
      (steps.natAbs ≤ 2 * profile.length →
        l = profile.take ((steps.natAbs + 1) / 2) ++
            (profile.take (steps.natAbs / 2)).reverse) ∧
      (2 * profile.length ≤ steps.natAbs →
        l = profile ++ List.replicate (steps.natAbs - 2 * profile.length) m ++
            profile.reverse) := by
  have h1 : 1 ≤ profile.length := List.length_pos.mpr hp
  obtain ⟨l, hl, hlen⟩ := wavAux_length profile m steps.natAbs 0 0 h1
  refine ⟨l, hl, hlen, ?_, ?_⟩
  · intro hshort
    have h := wavAux_short profile m steps.natAbs 0 h1 (by omega) (by omega) (by omega)
    rw [hl] at h
    have ha : steps.natAbs - 0 + 1 = steps.natAbs + 1 := by omega
    have hb : steps.natAbs + 0 = steps.natAbs := by omega
    rw [ha, hb, List.drop_zero] at h
    exact Option.some.inj h
  · intro hlong
    have h := wavAux_long profile m steps.natAbs 0 h1 (by omega) (by omega)
    rw [hl] at h
    have ha : steps.natAbs + 0 - 2 * profile.length =
        steps.natAbs - 2 * profile.length := by omega
    rw [ha, List.drop_zero] at h
    exact Option.some.inj h

/-- **C3 counterexample.**  On the empty profile the claim fails: a move of
one step produces no plan at all (an `IndexError`), not a plan with exactly
one delay. -/
theorem create_move_waveform_empty_profile_counterexample :
    moveDelays ([] : List ℕ) 42 1 = none ∧
    create_move_waveform 4 ([] : List ℕ) 42 1 = none := ⟨rfl, rfl⟩

/-- **C3 witness.** -/
theorem moveDelays_plan_shape_witness :
    ∃ l, moveDelays [100, 90] 42 (-5) = some l ∧
      l.length = (-5 : ℤ).natAbs ∧
      ((-5 : ℤ).natAbs ≤ 2 * [100, 90].length →
        l = [100, 90].take (((-5 : ℤ).natAbs + 1) / 2) ++
            ([100, 90].take ((-5 : ℤ).natAbs / 2)).reverse) ∧
      (2 * [100, 90].length ≤ (-5 : ℤ).natAbs →
        l = [100, 90] ++ List.replicate ((-5 : ℤ).natAbs - 2 * [100, 90].length) 42 ++
            [100, 90].reverse) :=
  moveDelays_plan_shape [100, 90] 42 (-5) (by decide)

/-- **C9.**  `calculate_acceleration_profile` returns the empty profile,
without any error, whenever `max_sps ≤ min_sps`; and on an empty
acceleration profile `create_move_waveform` fails (out-of-range read of
`profile[0]`) for every `steps ≠ 0`. -/
theorem empty_profile_index_error :
    (∀ (fuel : ℕ) (min_sps max_sps acceleration : ℚ), max_sps ≤ min_sps →
      calculate_acceleration_profile fuel min_sps max_sps acceleration = some []) ∧
    (∀ (pin m : ℕ) (steps : ℤ), steps ≠ 0 →
      create_move_waveform pin ([] : List ℕ) m steps = none) := by
  constructor
  · intro fuel min_sps max_sps acceleration h
    cases fuel <;>
      simp [calculate_acceleration_profile, profileLoop, not_lt.mpr h]
  · intro pin m steps hs
    have h1 : 1 ≤ steps.natAbs := by
      have := Int.natAbs_pos.mpr hs
      omega
    rw [create_move_waveform, moveDelays, wavAux_nil m steps.natAbs 0 0 h1]
    rfl

/-- **C9 witness.** -/
theorem empty_profile_index_error_witness :
    calculate_acceleration_profile 0 3000 1000 1000 = some [] ∧
    create_move_waveform 4 ([] : List ℕ) 42 3 = none :=
  ⟨empty_profile_index_error.1 0 3000 1000 1000 (by decide),
   empty_profile_index_error.2 4 42 3 (by decide)⟩

/-- **C10.**  For a non-empty profile and a non-zero move, the logical plan
both begins and ends with the slowest delay `profile[0]`. -/
theorem moveDelays_head_getLast_slowest (profile : List ℕ) (m : ℕ) (steps : ℤ)
    (hp : profile ≠ []) (hs : steps ≠ 0) :
    ∃ l, moveDelays profile m steps = some l ∧
      l.head? = profile.head? ∧ l.getLast? = profile.head? := by
  have h1 : 1 ≤ profile.length := List.length_pos.mpr hp
  have hc : 1 ≤ steps.natAbs := by
    have := Int.natAbs_pos.mpr hs
    omega
  obtain ⟨l, hl, hlen, hshort, hlong⟩ := moveDelays_plan_shape profile m steps hp
  refine ⟨l, hl, ?_⟩
  by_cases hsl : steps.natAbs ≤ 2 * profile.length
  · have hltake : profile.take ((steps.natAbs + 1) / 2) ≠ [] := by
      simp only [ne_eq, List.take_eq_nil_iff]
      push_neg
      constructor
      · omega
      · exact hp
    rw [hshort hsl]
    constructor
    · rw [List.head?_append_of_ne_nil _ hltake,
        take_head? profile ((steps.natAbs + 1) / 2) (by omega)]
    · rcases Nat.eq_zero_or_pos (steps.natAbs / 2) with hz | hpos
      · have hone : steps.natAbs = 1 := by omega
        rcases profile with _ | ⟨p, rest⟩
        · exact absurd rfl hp
        · simp [hone]
      · have hrev : (profile.take (steps.natAbs / 2)).reverse ≠ [] := by
          simp only [ne_eq, List.reverse_eq_nil_iff, List.take_eq_nil_iff]
          push_neg
          constructor
          · omega
          · exact hp
        rw [List.getLast?_append_of_ne_nil _ hrev, reverse_getLast?,
          take_head? profile (steps.natAbs / 2) hpos]
  · have h2l : 2 * profile.length ≤ steps.natAbs := by omega
    rw [hlong h2l]
    constructor
    · rw [List.append_assoc, List.head?_append_of_ne_nil _ hp]
    · have hrev : profile.reverse ≠ [] := by
        simp only [ne_eq, List.reverse_eq_nil_iff]
        exact hp
      rw [List.getLast?_append_of_ne_nil _ hrev, reverse_getLast?]

/-- **C10 witness.** -/
theorem moveDelays_head_getLast_slowest_witness :
    ∃ l, moveDelays [7, 5] 4 3 = some l ∧
      l.head? = [7, 5].head? ∧ l.getLast? = [7, 5].head? :=
  moveDelays_head_getLast_slowest [7, 5] 4 3 (by decide) (by decide)

/-! ### Rounding and the acceleration-profile generator -/

/-- Python's `round` is within half a unit of its argument. -/
theorem abs_pyRound_sub_le (q : ℚ) : |(pyRound q : ℚ) - q| ≤ 1 / 2 := by
  have h0 : (⌊q⌋ : ℚ) ≤ q := Int.floor_le q
  have h1 : q < ⌊q⌋ + 1 := Int.lt_floor_add_one q
  rw [pyRound]
  split_ifs with hr1 hr2 hpar <;>
    (rw [abs_le]; constructor <;> push_cast <;> linarith)

/-- `round(1) = 1`, used to evaluate scaled delays at concrete inputs. -/
theorem pyRound_one : pyRound 1 = 1 := by
  norm_num [pyRound]

/-- The profile-generation loop never returns when started on a negative
speed with non-negative acceleration: the speed only decreases, the loop
condition stays true, and the fuel runs out (`none`). -/
theorem profileLoop_neg (acceleration max_sps : ℚ) (hacc : 0 ≤ acceleration) :
    ∀ fuel (sps : ℚ), sps < 0 → sps < max_sps →
      profileLoop acceleration max_sps fuel sps = none := by
  intro fuel
  induction fuel with
  | zero => intro sps hneg hlt; simp [profileLoop, hlt]
  | succ fuel ih =>
    intro sps hneg hlt
    have hne : sps ≠ 0 := ne_of_lt hneg
    have hstep : sps + acceleration * (1 / sps) ≤ sps := by
      have hinv : 1 / sps ≤ 0 := le_of_lt (one_div_neg.mpr hneg)
      nlinarith
    rw [profileLoop, if_pos hlt, if_neg hne,
      ih (sps + acceleration * (1 / sps)) (lt_of_le_of_lt hstep hneg)
        (lt_of_le_of_lt hstep hlt)]
    rfl

/-- **C2 counterexample.**  With `min_sps = 1000 > 500 = max_sps` the
function does not fail: it returns the empty profile. -/
theorem calculate_acceleration_profile_inverted_counterexample :
    calculate_acceleration_profile 100 1000 500 1000 = some [] := rfl

/-- **C2 (amended).**  `calculate_acceleration_profile` performs no
configuration check: whenever `max_sps ≤ min_sps` (including every
`max_sps < min_sps`) it returns the empty profile normally.  A call fails to
return a profile only on the zero/negative-speed paths: `min_sps = 0 <
max_sps` dies on a division by zero, and `min_sps < 0 < max_sps` (with
non-negative acceleration) never terminates. -/
theorem calculate_acceleration_profile_no_validation :
    (∀ (fuel : ℕ) (min_sps max_sps acceleration : ℚ), max_sps ≤ min_sps →
      calculate_acceleration_profile fuel min_sps max_sps acceleration = some []) ∧
    (∀ (fuel : ℕ) (max_sps acceleration : ℚ), 0 < max_sps →
      calculate_acceleration_profile fuel 0 max_sps acceleration = none) ∧
    (∀ (fuel : ℕ) (min_sps max_sps acceleration : ℚ),
      min_sps < 0 → min_sps < max_sps → 0 ≤ acceleration →
      calculate_acceleration_profile fuel min_sps max_sps acceleration = none) := by
  refine ⟨?_, ?_, ?_⟩
  · intro fuel min_sps max_sps acceleration h
    cases fuel <;>
      simp [calculate_acceleration_profile, profileLoop, not_lt.mpr h]
  · intro fuel max_sps acceleration h
    cases fuel <;>
      simp [calculate_acceleration_profile, profileLoop, h]
  · intro fuel min_sps max_sps acceleration hneg hlt hacc
    exact profileLoop_neg acceleration max_sps hacc fuel min_sps hneg hlt

/-- **C2 witness.** -/
theorem calculate_acceleration_profile_no_validation_witness :
    calculate_acceleration_profile 3 1000 1000 7 = some [] ∧
    calculate_acceleration_profile 5 0 2 7 = none ∧
    calculate_acceleration_profile 4 (-3) 2 1 = none :=
  ⟨calculate_acceleration_profile_no_validation.1 3 1000 1000 7 (by decide),
   calculate_acceleration_profile_no_validation.2.1 5 2 7 (by decide),
   calculate_acceleration_profile_no_validation.2.2 4 (-3) 2 1 (by decide) (by decide)
     (by decide)⟩

/-! ### Synchronization of the two axis pulse trains -/

/-- Summing per-pulse rounding errors: the scaled train's total is within
half a microsecond per pulse of the exact rescaled total. -/
theorem scaled_sum_close (ws : List ℤ) (f : ℚ) :
    |((wavelength (ws.map (fun d : ℤ => pyRound ((d : ℚ) * f))) : ℚ)) -
        (wavelength ws : ℚ) * f| ≤ (ws.length : ℚ) / 2 := by
  induction ws with
  | nil => simp [wavelength]
  | cons d t ih =>
    have hd := abs_pyRound_sub_le ((d : ℚ) * f)
    have heq : ((wavelength ((d :: t).map (fun d : ℤ => pyRound ((d : ℚ) * f))) : ℚ)) -
        (wavelength (d :: t) : ℚ) * f =
        ((pyRound ((d : ℚ) * f) : ℚ) - (d : ℚ) * f) +
        (((wavelength (t.map (fun d : ℤ => pyRound ((d : ℚ) * f))) : ℚ)) -
          (wavelength t : ℚ) * f) := by
      simp only [wavelength, List.map_cons, List.sum_cons]
      push_cast
      ring
    calc |((wavelength ((d :: t).map (fun d : ℤ => pyRound ((d : ℚ) * f))) : ℚ)) -
          (wavelength (d :: t) : ℚ) * f|
        = |((pyRound ((d : ℚ) * f) : ℚ) - (d : ℚ) * f) +
            (((wavelength (t.map (fun d : ℤ => pyRound ((d : ℚ) * f))) : ℚ)) -
              (wavelength t : ℚ) * f)| := by rw [heq]
      _ ≤ |(pyRound ((d : ℚ) * f) : ℚ) - (d : ℚ) * f| +
            |((wavelength (t.map (fun d : ℤ => pyRound ((d : ℚ) * f))) : ℚ)) -
              (wavelength t : ℚ) * f| := abs_add _ _
      _ ≤ 1 / 2 + (t.length : ℚ) / 2 := add_le_add hd ih
      _ = ((d :: t).length : ℚ) / 2 := by
          simp only [List.length_cons]
          push_cast
          ring

/-- **C6.**  For non-empty trains of positive total duration, synchronization
scales exactly the train of smaller total by `longer / shorter` (rounding
each delay), leaves the other unchanged, returns the longer original total,
and the resulting totals agree within ± the number of pulses of the scaled
train. -/
theorem synchronize_scaling_spec (w1 w2 : List ℤ) (h1 : w1 ≠ []) (h2 : w2 ≠ [])
    (hp1 : 0 < wavelength w1) (hp2 : 0 < wavelength w2) :
    ∃ w1' w2' L, synchronize w1 w2 = some (w1', w2', L) ∧
      L = max (wavelength w1) (wavelength w2) ∧
      (wavelength w2 < wavelength w1 →
        w1' = w1 ∧
        w2' = w2.map (fun d : ℤ =>
          pyRound ((d : ℚ) * ((wavelength w1 : ℚ) / (wavelength w2 : ℚ))))) ∧
      (wavelength w1 ≤ wavelength w2 →
        w2' = w2 ∧
        w1' = w1.map (fun d : ℤ =>
          pyRound ((d : ℚ) * ((wavelength w2 : ℚ) / (wavelength w1 : ℚ))))) ∧
      |wavelength w1' - wavelength w2'| ≤
        (if wavelength w2 < wavelength w1 then (w2.length : ℤ) else (w1.length : ℤ)) := by
  by_cases hlt : wavelength w2 < wavelength w1
  · refine ⟨w1,
      w2.map (fun d : ℤ => pyRound ((d : ℚ) * ((wavelength w1 : ℚ) / (wavelength w2 : ℚ)))),
      wavelength w1, ?_, ?_, fun _ => ⟨rfl, rfl⟩, fun hle => absurd hlt (not_lt.mpr hle), ?_⟩
    · simp only [synchronize, if_neg h1, if_neg h2, if_pos hlt, if_neg (ne_of_gt hp2)]
    · exact (max_eq_left (le_of_lt hlt)).symm
    · rw [if_pos hlt]
      have key := scaled_sum_close w2 ((wavelength w1 : ℚ) / (wavelength w2 : ℚ))
      have hne : ((wavelength w2 : ℚ)) ≠ 0 := by exact_mod_cast ne_of_gt hp2
      have hexact : (wavelength w2 : ℚ) *
          ((wavelength w1 : ℚ) / (wavelength w2 : ℚ)) = (wavelength w1 : ℚ) := by
        field_simp
      rw [hexact] at key
      rw [← Int.cast_le (R := ℚ), Int.cast_abs, Int.cast_sub, Int.cast_natCast,
        abs_sub_comm]
      have hlen : (0 : ℚ) ≤ (w2.length : ℚ) := by positivity
      calc |((wavelength (w2.map (fun d : ℤ =>
              pyRound ((d : ℚ) * ((wavelength w1 : ℚ) / (wavelength w2 : ℚ))))) : ℚ)) -
            (wavelength w1 : ℚ)| ≤ (w2.length : ℚ) / 2 := key
        _ ≤ (w2.length : ℚ) := by linarith
  · have hle : wavelength w1 ≤ wavelength w2 := not_lt.mp hlt
    refine ⟨w1.map (fun d : ℤ =>
        pyRound ((d : ℚ) * ((wavelength w2 : ℚ) / (wavelength w1 : ℚ)))),
      w2, wavelength w2, ?_, ?_, fun hgt => absurd hgt hlt, fun _ => ⟨rfl, rfl⟩, ?_⟩
    · simp only [synchronize, if_neg h1, if_neg h2, if_neg hlt, if_neg (ne_of_gt hp1)]
    · exact (max_eq_right hle).symm
    · rw [if_neg hlt]
      have key := scaled_sum_close w1 ((wavelength w2 : ℚ) / (wavelength w1 : ℚ))
      have hne : ((wavelength w1 : ℚ)) ≠ 0 := by exact_mod_cast ne_of_gt hp1
      have hexact : (wavelength w1 : ℚ) *
          ((wavelength w2 : ℚ) / (wavelength w1 : ℚ)) = (wavelength w2 : ℚ) := by
        field_simp
      rw [hexact] at key
      rw [← Int.cast_le (R := ℚ), Int.cast_abs, Int.cast_sub, Int.cast_natCast]
      have hlen : (0 : ℚ) ≤ (w1.length : ℚ) := by positivity
      calc |((wavelength (w1.map (fun d : ℤ =>
              pyRound ((d : ℚ) * ((wavelength w2 : ℚ) / (wavelength w1 : ℚ))))) : ℚ)) -
            (wavelength w2 : ℚ)| ≤ (w1.length : ℚ) / 2 := key
        _ ≤ (w1.length : ℚ) := by linarith

/-- **C6 witness.** -/
theorem synchronize_scaling_spec_witness :
    ∃ w1' w2' L, synchronize [3] [1, 1] = some (w1', w2', L) ∧
      L = max (wavelength [3]) (wavelength [1, 1]) ∧
      (wavelength [1, 1] < wavelength [3] →
        w1' = [3] ∧
        w2' = ([1, 1] : List ℤ).map (fun d : ℤ =>
          pyRound ((d : ℚ) * ((wavelength [3] : ℚ) / (wavelength [1, 1] : ℚ))))) ∧
      (wavelength [3] ≤ wavelength [1, 1] →
        w2' = [1, 1] ∧
        w1' = ([3] : List ℤ).map (fun d : ℤ =>
          pyRound ((d : ℚ) * ((wavelength [1, 1] : ℚ) / (wavelength [3] : ℚ))))) ∧
      |wavelength w1' - wavelength w2'| ≤
        (if wavelength [1, 1] < wavelength [3] then (([1, 1] : List ℤ).length : ℤ)
         else (([3] : List ℤ).length : ℤ)) :=
  synchronize_scaling_spec [3] [1, 1] (by decide) (by decide) (by decide) (by decide)

/-! ### Half-pulse realization of logical delays -/

/-- Indexing into a flat map that emits exactly two elements per input. -/
theorem flatMap_pair_get {α β : Type} (g₁ g₂ : α → β) :
    ∀ (l : List α) (i : ℕ) (h : i < l.length),
      (l.flatMap (fun d => [g₁ d, g₂ d])).get? (2 * i) = some (g₁ (l.get ⟨i, h⟩)) ∧
      (l.flatMap (fun d => [g₁ d, g₂ d])).get? (2 * i + 1) = some (g₂ (l.get ⟨i, h⟩)) := by
  intro l
  induction l with
  | nil => intro i h; simp at h
  | cons a t ih =>
    intro i h
    cases i with
    | zero => simp [List.flatMap_cons]
    | succ i =>
      have hi : i < t.length := by simpa using h
      have e2 : 2 * (i + 1) = 2 * i + 1 + 1 := by ring
      have e2' : 2 * (i + 1) + 1 = 2 * i + 1 + 1 + 1 := by ring
      obtain ⟨ih1, ih2⟩ := ih i hi
      constructor
      · rw [e2, List.flatMap_cons]
        simpa using ih1
      · rw [e2', List.flatMap_cons]
        simpa using ih2

/-- **C5.**  Every logical delay `d` of the plan is realized as two
half-pulses of `d >> 1` microseconds each (signal high, then signal low);
the two halves are truncated identically and sum to the delay minus its
half-integer remainder (`2 * (d / 2) = d - d % 2`). -/
theorem half_pulse_realization (pin : ℕ) (profile : List ℕ) (m : ℕ) (steps : ℤ)
    (l : List ℕ) (ps : List Pulse)
    (hl : moveDelays profile m steps = some l)
    (hp : create_move_waveform pin profile m steps = some ps) :
    ∀ i (h : i < l.length),
      ps.get? (2 * i) = some ⟨1 <<< pin, 0, l.get ⟨i, h⟩ >>> 1⟩ ∧
      ps.get? (2 * i + 1) = some ⟨0, 1 <<< pin, l.get ⟨i, h⟩ >>> 1⟩ ∧
      l.get ⟨i, h⟩ >>> 1 + l.get ⟨i, h⟩ >>> 1 = l.get ⟨i, h⟩ - l.get ⟨i, h⟩ % 2 := by
  have hps : ps = l.flatMap
      (fun d => [⟨1 <<< pin, 0, d >>> 1⟩, ⟨0, 1 <<< pin, d >>> 1⟩]) := by
    rw [create_move_waveform, hl] at hp
    exact (Option.some.inj hp).symm
  subst hps
  intro i h
  obtain ⟨h1, h2⟩ := flatMap_pair_get
    (fun d : ℕ => (⟨1 <<< pin, 0, d >>> 1⟩ : Pulse))
    (fun d : ℕ => (⟨0, 1 <<< pin, d >>> 1⟩ : Pulse)) l i h
  refine ⟨h1, h2, ?_⟩
  rw [Nat.shiftRight_eq_div_pow]
  omega

/-- **C5 witness.** -/
theorem half_pulse_realization_witness :
    ([⟨16, 0, 1⟩, ⟨0, 16, 1⟩] : List Pulse).get? 0 = some ⟨16, 0, 3 >>> 1⟩ ∧
    ([⟨16, 0, 1⟩, ⟨0, 16, 1⟩] : List Pulse).get? 1 = some ⟨0, 16, 3 >>> 1⟩ ∧
    (3 : ℕ) >>> 1 + 3 >>> 1 = 3 - 3 % 2 := by
  have h := half_pulse_realization 4 [3] 2 1 [3] [⟨16, 0, 1⟩, ⟨0, 16, 1⟩]
    rfl rfl 0 (by decide)
  exact h

/-! ### Construction of the MoveStep list by `run` -/

/-- Tone-axis positions reached after each successive move of a list,
starting from `position`. -/
def positionsAfter (position : ℤ) : List (ℤ × ℤ) → List ℤ
  | [] => []
  | mv :: ms => (position + mv.2) :: positionsAfter (position + mv.2) ms

/-- After the first target, the loop variable `delay` is `0`, so every move
it emits carries zero feed-delay. -/
theorem emitMoves_zero_fst :
    ∀ (ts : List ℤ) (p : ℤ), ∀ mv ∈ emitMoves p 0 ts, mv.1 = 0 := by
  intro ts
  induction ts with
  | nil => intro p mv hmv; simp [emitMoves] at hmv
  | cons t ts ih =>
    intro p mv hmv
    rw [emitMoves] at hmv
    split_ifs at hmv with hc
    · exact ih t mv hmv
    · rcases List.mem_cons.mp hmv with h | h
      · rw [h]
      · exact ih t mv h

/-- All moves of an event except (possibly) the first carry zero
feed-delay. -/
theorem emitMoves_tail_fst :
    ∀ (ts : List ℤ) (p d : ℤ), ∀ mv ∈ (emitMoves p d ts).tail, mv.1 = 0 := by
  intro ts p d mv hmv
  cases ts with
  | nil => simp [emitMoves] at hmv
  | cons t ts =>
    rw [emitMoves] at hmv
    split_ifs at hmv with hc
    · exact emitMoves_zero_fst ts t mv (List.mem_of_mem_tail hmv)
    · exact emitMoves_zero_fst ts t mv hmv

/-- A non-zero scaled event delay is carried by the first emitted move. -/
theorem emitMoves_head (p d t : ℤ) (ts : List ℤ) (hd : d ≠ 0) :
    (emitMoves p d (t :: ts)).head? = some (d, t - p) := by
  rw [emitMoves, if_neg (fun h => hd ((Prod.mk.injEq _ _ _ _).mp h).1)]
  rfl

/-- The `(0, 0)` candidate move is always dropped. -/
theorem emitMoves_ne_zero :
    ∀ (ts : List ℤ) (p d : ℤ), ((0 : ℤ), (0 : ℤ)) ∉ emitMoves p d ts := by
  intro ts
  induction ts with
  | nil => intro p d h; simp [emitMoves] at h
  | cons t ts ih =>
    intro p d h
    rw [emitMoves] at h
    split_ifs at h with hc
    · exact ih t 0 h
    · rcases List.mem_cons.mp h with h' | h'
      · exact hc h'.symm
      · exact ih t 0 h'

/-- The positions visited by the emitted moves form a sublist of the chosen
target order (dropped `(0,0)` moves do not change the position). -/
theorem positionsAfter_emitMoves_sublist :
    ∀ (ts : List ℤ) (p d : ℤ), List.Sublist (positionsAfter p (emitMoves p d ts)) ts := by
  intro ts
  induction ts with
  | nil => intro p d; simp [emitMoves, positionsAfter]
  | cons t ts ih =>
    intro p d
    rw [emitMoves]
    split_ifs with hc
    · have hp : t = p := by
        have := ((Prod.mk.injEq _ _ _ _).mp hc).2
        omega
      subst hp
      exact List.Sublist.cons t (ih t 0)
    · rw [positionsAfter]
      have hpt : p + (t - p) = t := by ring
      rw [hpt]
      exact List.Sublist.cons₂ t (ih t 0)

/-- If no event has an empty note set, `buildSteps` succeeds. -/
theorem buildSteps_some (row0 tone_steps : ℤ) (feed_steps : ℚ) (ki : ℕ → ℤ) :
    ∀ (events : List Event) (pos0 : ℤ), (∀ ev ∈ events, ev.notes ≠ []) →
      ∃ r, buildSteps row0 tone_steps feed_steps ki pos0 events = some r ∧
        ((0 : ℤ), (0 : ℤ)) ∉ r.1 := by
  intro events
  induction events with
  | nil => intro pos0 _; exact ⟨([], pos0), rfl, by simp⟩
  | cons ev evs ih =>
    intro pos0 h
    have he : ev.notes ≠ [] := h ev (List.mem_cons_self ev evs)
    obtain ⟨r, hr, hmem⟩ :=
      ih (processEvent row0 tone_steps feed_steps ki pos0 ev).2
        (fun e hev => h e (List.mem_cons_of_mem ev hev))
    refine ⟨((processEvent row0 tone_steps feed_steps ki pos0 ev).1 ++ r.1, r.2), ?_, ?_⟩
    · rw [buildSteps, if_neg he, hr]
      rfl
    · intro hmem0
      rcases List.mem_append.mp hmem0 with h' | h'
      · exact emitMoves_ne_zero _ pos0 _ h'
      · exact hmem h'

/-- `buildSteps` fails exactly when some event has an empty note set. -/
theorem buildSteps_none_iff (row0 tone_steps : ℤ) (feed_steps : ℚ) (ki : ℕ → ℤ) :
    ∀ (events : List Event) (pos0 : ℤ),
      buildSteps row0 tone_steps feed_steps ki pos0 events = none ↔
        ∃ ev ∈ events, ev.notes = [] := by
  intro events
  induction events with
  | nil => intro pos0; simp [buildSteps]
  | cons ev evs ih =>
    intro pos0
    by_cases he : ev.notes = []
    · simp [buildSteps, he]
    · rw [buildSteps, if_neg he]
      constructor
      · intro h
        have : buildSteps row0 tone_steps feed_steps ki
            (processEvent row0 tone_steps feed_steps ki pos0 ev).2 evs = none := by
          by_contra hne
          rcases Option.ne_none_iff_exists'.mp hne with ⟨x, hx⟩
          rw [hx] at h
          simp at h
        rcases (ih _).mp this with ⟨e, hmem, hnil⟩
        exact ⟨e, List.mem_cons_of_mem ev hmem, hnil⟩
      · intro ⟨e, hmem, hnil⟩
        rcases List.mem_cons.mp hmem with h' | h'
        · subst h'
          exact absurd hnil he
        · rw [(ih _).mpr ⟨e, h', hnil⟩]
          rfl

/-- **C8.**  A run fails with the empty-note-set error, before any move is
executed, exactly when some event has an empty note set; with all note sets
non-empty the error is never raised. -/
theorem run_empty_note_error (row0 tone_steps : ℤ) (feed_steps : ℚ) (ki : ℕ → ℤ)
    (cutter_position end_feed idle_position position0 : ℤ) (events : List Event) :
    ((∃ ev ∈ events, ev.notes = []) →
      run row0 tone_steps feed_steps ki cutter_position end_feed idle_position
        position0 events = none) ∧
    ((∀ ev ∈ events, ev.notes ≠ []) →
      ∃ r, run row0 tone_steps feed_steps ki cutter_position end_feed idle_position
        position0 events = some r) := by
  constructor
  · intro h
    rw [run, (buildSteps_none_iff row0 tone_steps feed_steps ki events position0).mpr h]
    rfl
  · intro h
    obtain ⟨r, hr, _⟩ := buildSteps_some row0 tone_steps feed_steps ki events position0 h
    exact ⟨do_run cutter_position end_feed idle_position r.1 position0, by rw [run, hr]; rfl⟩

/-- **C8 witness.** -/
theorem run_empty_note_error_witness :
    run 10 5 2 (fun n => (n : ℤ)) 3 0 0 50 [⟨1, [4]⟩, ⟨2, []⟩] = none ∧
    ∃ r, run 10 5 2 (fun n => (n : ℤ)) 3 0 0 50 [⟨1, [4, 14]⟩] = some r :=
  ⟨(run_empty_note_error 10 5 2 (fun n => (n : ℤ)) 3 0 0 50 [⟨1, [4]⟩, ⟨2, []⟩]).1
      (by simp),
   (run_empty_note_error 10 5 2 (fun n => (n : ℤ)) 3 0 0 50 [⟨1, [4, 14]⟩]).2
      (by simp)⟩

/-- **C4.**  Properties of the MoveStep construction: (i) with non-empty
note sets, `run`'s step list is built successfully and never contains a
`(0, 0)` pair; (ii) within one event all moves after the first carry zero
feed-delay; (iii) a non-zero scaled event delay is carried by the first
emitted move (toward the first target of the chosen order); (iv) the
positions visited within one event follow the sorted targets in order —
ascending when the order is not reversed, descending when the
closer-to-last-target test reverses it. -/
theorem run_moveStep_construction (row0 tone_steps : ℤ) (feed_steps : ℚ)
    (ki : ℕ → ℤ) :
    (∀ (pos0 : ℤ) (events : List Event), (∀ ev ∈ events, ev.notes ≠ []) →
      ∃ r, buildSteps row0 tone_steps feed_steps ki pos0 events = some r ∧
        ((0 : ℤ), (0 : ℤ)) ∉ r.1) ∧
    (∀ (pos : ℤ) (ev : Event),
      ∀ mv ∈ ((processEvent row0 tone_steps feed_steps ki pos ev).1).tail, mv.1 = 0) ∧
    (∀ (pos : ℤ) (ev : Event) (t : ℤ) (ts : List ℤ),
      chooseOrder pos (resolvePositions row0 tone_steps ki ev.notes) = t :: ts →
      pyRound (ev.delay * feed_steps) ≠ 0 →
      ((processEvent row0 tone_steps feed_steps ki pos ev).1).head? =
        some (pyRound (ev.delay * feed_steps), t - pos)) ∧
    (∀ (pos : ℤ) (ev : Event),
      (¬ |pos - (resolvePositions row0 tone_steps ki ev.notes).getLastD 0| <
          |pos - (resolvePositions row0 tone_steps ki ev.notes).headD 0| →
        List.Chain' (· ≤ ·)
          (positionsAfter pos ((processEvent row0 tone_steps feed_steps ki pos ev).1))) ∧
      (|pos - (resolvePositions row0 tone_steps ki ev.notes).getLastD 0| <
          |pos - (resolvePositions row0 tone_steps ki ev.notes).headD 0| →
        List.Chain' (fun a b => b ≤ a)
          (positionsAfter pos ((processEvent row0 tone_steps feed_steps ki pos ev).1)))) := by
  refine ⟨fun pos0 events h => buildSteps_some row0 tone_steps feed_steps ki events pos0 h,
    ?_, ?_, ?_⟩
  · intro pos ev mv hmv
    exact emitMoves_tail_fst _ pos (pyRound (ev.delay * feed_steps)) mv hmv
  · intro pos ev t ts horder hd
    show (emitMoves pos (pyRound (ev.delay * feed_steps))
      (chooseOrder pos (resolvePositions row0 tone_steps ki ev.notes))).head? = _
    rw [horder]
    exact emitMoves_head pos _ t ts hd
  · intro pos ev
    have hsorted : List.Pairwise (· ≤ ·) (resolvePositions row0 tone_steps ki ev.notes) :=
      List.sorted_insertionSort (· ≤ ·) _
    constructor
    · intro hrev
      have horder : chooseOrder pos (resolvePositions row0 tone_steps ki ev.notes) =
          resolvePositions row0 tone_steps ki ev.notes := by
        rw [chooseOrder, if_neg hrev]
      show List.Chain' (· ≤ ·) (positionsAfter pos
        (emitMoves pos (pyRound (ev.delay * feed_steps))
          (chooseOrder pos (resolvePositions row0 tone_steps ki ev.notes))))
      rw [horder]
      exact (hsorted.sublist
        (positionsAfter_emitMoves_sublist _ pos (pyRound (ev.delay * feed_steps)))).chain'
    · intro hrev
      have horder : chooseOrder pos (resolvePositions row0 tone_steps ki ev.notes) =
          (resolvePositions row0 tone_steps ki ev.notes).reverse := by
        rw [chooseOrder, if_pos hrev]
      have hrevpw : List.Pairwise (fun a b => b ≤ a)
          (resolvePositions row0 tone_steps ki ev.notes).reverse :=
        List.pairwise_reverse.mpr hsorted
      show List.Chain' (fun a b => b ≤ a) (positionsAfter pos
        (emitMoves pos (pyRound (ev.delay * feed_steps))
          (chooseOrder pos (resolvePositions row0 tone_steps ki ev.notes))))
      rw [horder]
      exact (hrevpw.sublist
        (positionsAfter_emitMoves_sublist _ pos (pyRound (ev.delay * feed_steps)))).chain'

/-- **C4 witness.** -/
theorem run_moveStep_construction_witness :
    (∃ r, buildSteps 10 5 1 (fun n => (n : ℤ)) 50 [⟨1, [4, 14]⟩] = some r ∧
      ((0 : ℤ), (0 : ℤ)) ∉ r.1) ∧
    (∀ mv ∈ ((processEvent 10 5 1 (fun n => (n : ℤ)) 50 ⟨1, [4, 14]⟩).1).tail,
      mv.1 = 0) ∧
    (((processEvent 10 5 1 (fun n => (n : ℤ)) 50 ⟨1, [4, 14]⟩).1).head? =
      some (pyRound ((1 : ℚ) * 1), 30 - 50)) ∧
    List.Chain' (· ≤ ·)
      (positionsAfter 50 ((processEvent 10 5 1 (fun n => (n : ℤ)) 50 ⟨1, [4, 14]⟩).1)) := by
  have h := run_moveStep_construction 10 5 1 (fun n => (n : ℤ))
  refine ⟨h.1 50 [⟨1, [4, 14]⟩] (by simp), h.2.1 50 ⟨1, [4, 14]⟩, ?_, ?_⟩
  · exact h.2.2.1 50 ⟨1, [4, 14]⟩ 30 [80] (by decide) (by simp [pyRound_one])
  · exact (h.2.2.2 50 ⟨1, [4, 14]⟩).1 (by decide)

/-! ### Cutter sequencing in `do_run` -/

/-- Recognizer for the cut action. -/
def isCut : Action → Bool
  | .cut => true
  | _ => false

/-- Recognizer for move actions. -/
def isMove : Action → Bool
  | .move _ _ => true
  | _ => false

/-- Cumulative feed-delay total after the first `n` steps of a plan. -/
def cumFeed (steps : List (ℤ × ℤ)) (n : ℕ) : ℤ := ((steps.take n).map Prod.fst).sum

/-- Number of moves executed strictly before the first cut of a trace. -/
def movesUntilCut (tr : List Action) : ℕ :=
  (tr.takeWhile (fun a => !isCut a)).countP isMove

/-- The trace of a step list executed without any cutter activity. -/
def plainTrace (steps : List (ℤ × ℤ)) : List Action :=
  steps.flatMap (fun s => [Action.move s.1 s.2, Action.punch])

theorem cumFeed_cons (s : ℤ × ℤ) (rest : List (ℤ × ℤ)) (n : ℕ) :
    cumFeed (s :: rest) (n + 1) = s.1 + cumFeed rest n := by
  simp [cumFeed, List.take_succ_cons]

theorem plainTrace_countCut (steps : List (ℤ × ℤ)) :
    (plainTrace steps).countP isCut = 0 := by
  induction steps with
  | nil => rfl
  | cons s rest ih => simp [plainTrace, isCut] at ih ⊢; exact ih

theorem plainTrace_countMove (steps : List (ℤ × ℤ)) :
    (plainTrace steps).countP isMove = steps.length := by
  induction steps with
  | nil => rfl
  | cons s rest ih => simp [plainTrace, isMove, List.countP_cons] at ih ⊢; omega

/-- `takeWhile` passes over a prefix all of whose elements satisfy the
predicate. -/
theorem takeWhile_append_all {α : Type} (p : α → Bool) :
    ∀ (xs ys : List α), (∀ a ∈ xs, p a = true) →
      (xs ++ ys).takeWhile p = xs ++ ys.takeWhile p := by
  intro xs ys
  induction xs with
  | nil => intro _; rfl
  | cons x xs ih =>
    intro h
    have hx : p x = true := h x (List.mem_cons_self x xs)
    simp only [List.cons_append, List.takeWhile_cons, hx, if_true]
    rw [ih (fun a ha => h a (List.mem_cons_of_mem x ha))]

theorem plainTrace_all_not_cut (steps : List (ℤ × ℤ)) :
    ∀ a ∈ plainTrace steps, (!isCut a) = true := by
  induction steps with
  | nil => intro a ha; simp [plainTrace] at ha
  | cons s rest ih =>
    intro a ha
    rw [plainTrace, List.flatMap_cons] at ha
    simp only [List.cons_append, List.nil_append, List.mem_cons] at ha
    rcases ha with h | h | h
    · rw [h]; rfl
    · rw [h]; rfl
    · exact ih a h

/-- A waveform-send trace has no cutter activity when the cutter has
already fired. -/
theorem doRunAux_true (cutter_step : ℤ) :
    ∀ (steps : List (ℤ × ℤ)) (total pos : ℤ),
      doRunAux cutter_step steps total pos true =
        (plainTrace steps, pos + (steps.map Prod.snd).sum, true) := by
  intro steps
  induction steps with
  | nil => intro total pos; simp [doRunAux, plainTrace]
  | cons s rest ih =>
    intro total pos
    rw [doRunAux]
    simp only [Bool.not_true, Bool.false_and, Bool.or_false, ih, plainTrace,
      List.flatMap_cons]
    simp [add_assoc]

/-- When no boundary reaches the threshold, the loop runs the whole plan
with no cut and leaves `did_cut` false. -/
theorem doRunAux_no_cross (cutter_step : ℤ) :
    ∀ (steps : List (ℤ × ℤ)) (total pos : ℤ),
      (∀ n < steps.length, total + cumFeed steps (n + 1) < cutter_step) →
      doRunAux cutter_step steps total pos false =
        (plainTrace steps, pos + (steps.map Prod.snd).sum, false) := by
  intro steps
  induction steps with
  | nil => intro total pos _; simp [doRunAux, plainTrace]
  | cons s rest ih =>
    intro total pos h
    have h0 : total + s.1 < cutter_step := by
      have h' := h 0 (by simp)
      rw [cumFeed_cons] at h'
      simp [cumFeed] at h'
      linarith
    have hfire : ¬ cutter_step ≤ total + s.1 := not_le.mpr h0
    rw [doRunAux]
    simp only [Bool.not_false, Bool.true_and, decide_eq_true_eq,
      decide_eq_false hfire, Bool.or_false]
    rw [ih (total + s.1) (pos + s.2) (fun n hn => by
      have h' := h (n + 1) (by simpa using Nat.succ_lt_succ hn)
      rw [cumFeed_cons] at h'
      linarith)]
    simp [plainTrace, add_assoc]

/-- When the threshold is first reached after step `j₀`, the loop emits the
single cut right after that step's punch. -/
theorem doRunAux_cross (cutter_step : ℤ) :
    ∀ (steps : List (ℤ × ℤ)) (total pos : ℤ) (j₀ : ℕ),
      j₀ < steps.length →
      cutter_step ≤ total + cumFeed steps (j₀ + 1) →
      (∀ m < j₀, total + cumFeed steps (m + 1) < cutter_step) →
      doRunAux cutter_step steps total pos false =
        (plainTrace (steps.take (j₀ + 1)) ++
          Action.cut :: plainTrace (steps.drop (j₀ + 1)),
         pos + (steps.map Prod.snd).sum, true) := by
  intro steps
  induction steps with
  | nil => intro total pos j₀ h; simp at h
  | cons s rest ih =>
    intro total pos j₀ hlen hcross hmin
    cases j₀ with
    | zero =>
      have h0 : cutter_step ≤ total + s.1 := by
        rw [cumFeed_cons] at hcross
        simp [cumFeed] at hcross
        linarith
      rw [doRunAux]
      simp only [Bool.not_false, Bool.true_and, decide_eq_true_eq,
        decide_eq_true h0, Bool.or_true, doRunAux_true]
      simp [plainTrace, add_assoc]
    | succ j =>
      have h0 : total + s.1 < cutter_step := by
        have h' := hmin 0 (Nat.succ_pos j)
        rw [cumFeed_cons] at h'
        simp [cumFeed] at h'
        linarith
      have hfire : ¬ cutter_step ≤ total + s.1 := not_le.mpr h0
      rw [doRunAux]
      simp only [Bool.not_false, Bool.true_and, decide_eq_true_eq,
        decide_eq_false hfire, Bool.or_false]
      rw [ih (total + s.1) (pos + s.2) j (by simpa using hlen)
        (by rw [cumFeed_cons] at hcross; linarith)
        (fun m hm => by
          have h' := hmin (m + 1) (Nat.succ_lt_succ hm)
          rw [cumFeed_cons] at h'
          linarith)]
      simp [plainTrace, add_assoc, List.take_succ_cons, List.drop_succ_cons]

theorem pyMove_trace_cases (f t p : ℤ) :
    (pyMove f t p).1 = [] ∨ (pyMove f t p).1 = [Action.move f t] := by
  rw [pyMove]
  split_ifs <;> simp

theorem pyMove_countCut (f t p : ℤ) : ((pyMove f t p).1).countP isCut = 0 := by
  rcases pyMove_trace_cases f t p with h | h <;> rw [h] <;> simp [isCut]

/-- Trace decomposition of `do_run` when the threshold is crossed at the
first boundary `j₀`: the single cut appears right after the `(j₀+1)`-st
move's punch, and nothing after it cuts again. -/
theorem do_run_cross_trace (cp ef idle pos0 : ℤ) (steps : List (ℤ × ℤ)) (j₀ : ℕ)
    (hlen : j₀ < steps.length)
    (hcross : (steps.map Prod.fst).sum + cp ≤ cumFeed steps (j₀ + 1))
    (hmin : ∀ m < j₀, cumFeed steps (m + 1) < (steps.map Prod.fst).sum + cp) :
    ∃ post, (do_run cp ef idle steps pos0).1 =
      plainTrace (steps.take (j₀ + 1)) ++ Action.cut :: post ∧
      post.countP isCut = 0 := by
  have hrw := doRunAux_cross ((steps.map Prod.fst).sum + cp) steps 0 pos0 j₀ hlen
    (by rw [zero_add]; exact hcross)
    (fun m hm => by rw [zero_add]; exact hmin m hm)
  refine ⟨plainTrace (steps.drop (j₀ + 1)) ++
    (if 0 < ef then pyMove ef (idle - (pos0 + (steps.map Prod.snd).sum))
        (pos0 + (steps.map Prod.snd).sum) else ([], pos0 + (steps.map Prod.snd).sum)).1 ++
    (pyMove 0 (idle -
        (if 0 < ef then pyMove ef (idle - (pos0 + (steps.map Prod.snd).sum))
            (pos0 + (steps.map Prod.snd).sum)
         else ([], pos0 + (steps.map Prod.snd).sum)).2)
      (if 0 < ef then pyMove ef (idle - (pos0 + (steps.map Prod.snd).sum))
          (pos0 + (steps.map Prod.snd).sum)
       else ([], pos0 + (steps.map Prod.snd).sum)).2).1, ?_, ?_⟩
  · simp only [do_run, hrw]
    simp [List.append_assoc]
  · rw [List.countP_append, List.countP_append, plainTrace_countCut]
    have h2 : (if 0 < ef then pyMove ef (idle - (pos0 + (steps.map Prod.snd).sum))
        (pos0 + (steps.map Prod.snd).sum)
        else ([], pos0 + (steps.map Prod.snd).sum)).1.countP isCut = 0 := by
      split_ifs with h
      · exact pyMove_countCut _ _ _
      · rfl
    rw [h2, pyMove_countCut]

/-- The end-of-run tail after the cut: optional end-feed move and the
return to the idle position.  Never contains a cut. -/
def finTail (ef idle q : ℤ) : List Action :=
  (if 0 < ef then pyMove ef (idle - q) q else ([], q)).1 ++
  (pyMove 0 (idle - (if 0 < ef then pyMove ef (idle - q) q else ([], q)).2)
    (if 0 < ef then pyMove ef (idle - q) q else ([], q)).2).1

theorem finTail_countCut (ef idle q : ℤ) : (finTail ef idle q).countP isCut = 0 := by
  rw [finTail, List.countP_append]
  have h2 : ((if 0 < ef then pyMove ef (idle - q) q else ([], q)).1).countP isCut = 0 := by
    split_ifs with h
    · exact pyMove_countCut _ _ _
    · rfl
  rw [h2, pyMove_countCut]

/-- Trace decomposition of `do_run` when the plan never reaches the
threshold: the plan runs cut-free, then (for a positive cutter offset) the
appended move `(cutter_position, idle_position - final_position)` executes,
then the single cut, and nothing after it cuts again. -/
theorem do_run_no_cross_trace (cp ef idle pos0 : ℤ) (steps : List (ℤ × ℤ))
    (hnc : ∀ j < steps.length,
      cumFeed steps (j + 1) < (steps.map Prod.fst).sum + cp) :
    ∃ post, (do_run cp ef idle steps pos0).1 =
      plainTrace steps ++
        (if 0 < cp then
          [Action.move cp (idle - (pos0 + (steps.map Prod.snd).sum))] else []) ++
        Action.cut :: post ∧
      post.countP isCut = 0 := by
  have hrw := doRunAux_no_cross ((steps.map Prod.fst).sum + cp) steps 0 pos0
    (fun n hn => by rw [zero_add]; exact hnc n hn)
  have hmv : (if 0 < cp then
      pyMove cp (idle - (pos0 + (steps.map Prod.snd).sum))
        (pos0 + (steps.map Prod.snd).sum)
      else ([], pos0 + (steps.map Prod.snd).sum)).1 =
      (if 0 < cp then
        [Action.move cp (idle - (pos0 + (steps.map Prod.snd).sum))] else []) := by
    split_ifs with h
    · rw [pyMove, if_neg (fun hc => (ne_of_gt h) hc.1)]
    · rfl
  refine ⟨finTail ef idle
      ((if 0 < cp then pyMove cp (idle - (pos0 + (steps.map Prod.snd).sum))
          (pos0 + (steps.map Prod.snd).sum)
        else ([], pos0 + (steps.map Prod.snd).sum)).2), ?_, ?_⟩
  · simp only [do_run, hrw, finTail]
    simp [hmv, List.append_assoc]
  · exact finTail_countCut _ _ _

/-- **C1.**  In every run the cutter fires exactly once.  The threshold is
`(sum of feed delays) + cutter_position`; if the running cumulative feed
total first reaches it at boundary `j₀` (counting from 0), the cut happens
after exactly `j₀ + 1` moves; if no boundary reaches it, the cut happens in
finalization, after all `len(steps)` plan moves plus the extra positioning
move when `cutter_position > 0`. -/
theorem do_run_fires_cutter_exactly_once (cp ef idle pos0 : ℤ)
    (steps : List (ℤ × ℤ)) :
    ((do_run cp ef idle steps pos0).1.countP isCut = 1) ∧
    (∀ j₀, j₀ < steps.length →
      (steps.map Prod.fst).sum + cp ≤ cumFeed steps (j₀ + 1) →
      (∀ m < j₀, cumFeed steps (m + 1) < (steps.map Prod.fst).sum + cp) →
      movesUntilCut (do_run cp ef idle steps pos0).1 = j₀ + 1) ∧
    ((∀ j < steps.length,
        cumFeed steps (j + 1) < (steps.map Prod.fst).sum + cp) →
      movesUntilCut (do_run cp ef idle steps pos0).1 =
        steps.length + if 0 < cp then 1 else 0) := by
  refine ⟨?_, ?_, ?_⟩
  · -- exactly one cut, whichever way the run ends
    by_cases hex : ∃ j, j < steps.length ∧
        (steps.map Prod.fst).sum + cp ≤ cumFeed steps (j + 1)
    · obtain ⟨hlen, hcross⟩ := Nat.find_spec hex
      have hmin : ∀ m < Nat.find hex,
          cumFeed steps (m + 1) < (steps.map Prod.fst).sum + cp := by
        intro m hm
        have h' := Nat.find_min hex hm
        push_neg at h'
        exact h' (lt_trans hm hlen)
      obtain ⟨post, htr, hpost⟩ :=
        do_run_cross_trace cp ef idle pos0 steps (Nat.find hex) hlen hcross hmin
      rw [htr, List.countP_append, plainTrace_countCut, List.countP_cons, hpost]
      rfl
    · push_neg at hex
      obtain ⟨post, htr, hpost⟩ := do_run_no_cross_trace cp ef idle pos0 steps hex
      rw [htr, List.countP_append, List.countP_append, plainTrace_countCut,
        List.countP_cons, hpost]
      have : (if 0 < cp then
          [Action.move cp (idle - (pos0 + (steps.map Prod.snd).sum))]
          else ([] : List Action)).countP isCut = 0 := by
        split_ifs <;> simp [isCut]
      rw [this]
      rfl
  · intro j₀ hlen hcross hmin
    obtain ⟨post, htr, _⟩ :=
      do_run_cross_trace cp ef idle pos0 steps j₀ hlen hcross hmin
    rw [movesUntilCut, htr,
      takeWhile_append_all _ _ _ (plainTrace_all_not_cut (steps.take (j₀ + 1)))]
    simp only [List.takeWhile_cons, isCut, Bool.not_true, Bool.false_eq_true, if_false]
    rw [List.append_nil, plainTrace_countMove, List.length_take]
    omega
  · intro hnc
    obtain ⟨post, htr, _⟩ := do_run_no_cross_trace cp ef idle pos0 steps hnc
    have hall : ∀ a ∈ plainTrace steps ++
        (if 0 < cp then
          [Action.move cp (idle - (pos0 + (steps.map Prod.snd).sum))] else []),
        (!isCut a) = true := by
      intro a ha
      rcases List.mem_append.mp ha with h | h
      · exact plainTrace_all_not_cut steps a h
      · split_ifs at h with hcp
        · rcases List.mem_singleton.mp h with rfl
          rfl
        · simp at h
    rw [movesUntilCut, htr, takeWhile_append_all _ _ _ hall]
    simp only [List.takeWhile_cons, isCut, Bool.not_true, Bool.false_eq_true, if_false]
    rw [List.append_nil, List.countP_append, plainTrace_countMove]
    have : (if 0 < cp then
        [Action.move cp (idle - (pos0 + (steps.map Prod.snd).sum))]
        else ([] : List Action)).countP isMove = if 0 < cp then 1 else 0 := by
      split_ifs <;> simp [isMove]
    rw [this]

/-- **C1 witness.** -/
theorem do_run_fires_cutter_exactly_once_witness :
    ((do_run 0 0 0 [((2 : ℤ), (1 : ℤ))] 0).1.countP isCut = 1) ∧
    movesUntilCut (do_run 0 0 0 [((2 : ℤ), (1 : ℤ))] 0).1 = 0 + 1 :=
  ⟨(do_run_fires_cutter_exactly_once 0 0 0 0 [(2, 1)]).1,
   (do_run_fires_cutter_exactly_once 0 0 0 0 [(2, 1)]).2.1 0 (by decide) (by decide)
     (by decide)⟩

/-- **C7 counterexample.**  With `cutter_position = 3`, plan `[(1, 5)]`,
idle position 0 and start position 0, the move performed before the final
cut is `move 3 (-5)`: it advances the feed axis by the cutter offset but
also moves the tone axis by `-5 ≠ 0` — it is not feed-only. -/
theorem do_run_final_move_not_feed_only :
    (do_run 3 0 0 [((1 : ℤ), (5 : ℤ))] 0).1 =
      [Action.move 1 5, Action.punch, Action.move 3 (-5), Action.cut] ∧
    (-5 : ℤ) ≠ 0 := by
  exact ⟨rfl, by decide⟩

/-- **C7 (amended).**  When the plan finishes without reaching the cutter
threshold and the cutter offset is positive, the additional move before the
cut advances the feed axis by `cutter_position` and simultaneously moves the
tone axis to the idle position: its tone component is
`idle_position - (final head position)`, which is zero only when the head is
already at the idle position. -/
theorem do_run_final_move_tone_to_idle (cp ef idle pos0 : ℤ)
    (steps : List (ℤ × ℤ))
    (hnc : ∀ j < steps.length,
      cumFeed steps (j + 1) < (steps.map Prod.fst).sum + cp)
    (hcp : 0 < cp) :
    ∃ post, (do_run cp ef idle steps pos0).1 =
      plainTrace steps ++
        Action.move cp (idle - (pos0 + (steps.map Prod.snd).sum)) ::
          Action.cut :: post := by
  obtain ⟨post, htr, _⟩ := do_run_no_cross_trace cp ef idle pos0 steps hnc
  rw [if_pos hcp] at htr
  refine ⟨post, ?_⟩
  rw [htr]
  simp [List.append_assoc]

/-- **C7 witness.** -/
theorem do_run_final_move_tone_to_idle_witness :
    ∃ post, (do_run 3 0 0 [((1 : ℤ), (5 : ℤ))] 0).1 =
      plainTrace [((1 : ℤ), (5 : ℤ))] ++
        Action.move 3 (0 - (0 + ([((1 : ℤ), (5 : ℤ))].map Prod.snd).sum)) ::
          Action.cut :: post :=
  do_run_final_move_tone_to_idle 3 0 0 0 [(1, 5)] (by decide) (by decide)

end MusicPuncher
